import Mathlib

/-!
# A shallow embedding of the spatialnet core, with proofs about it

This file embeds the parts of the `tipech/spatialnet` repository that the
verified properties talk about:

* `src/common/regions/interval.py`   — the `Interval` value type;
* `src/common/regions/region.py`     — the `Region` value type;
* `src/common/generic/objects/traced_object.py` — ancestor bookkeeping;
* `src/common/generic/objects/serializable_object.py` and
  `src/common/regions/region_stream.py` — (de)serialization of Regions;
* `src/common/generic/iterators/base_stream.py` — stream checkpointing;
* `src/generators/trajectories/trajectory_net_constructor.py` — proximity
  graphs;
* `src/generators/trajectories/trajectory_edge_converter.py` — the
  contact-interval extraction algorithms `get_edge` and `get_edge_sorted`.

Python floats are embedded as exact rationals (`ℚ`); all comparisons in the
source are order comparisons and equalities that the rationals model
exactly.  Python exceptions are embedded as the error side of `Except`,
with an explicit enumeration `PyError` of the exception classes the
embedded code can raise.  Python dicts keyed by node pairs are embedded as
association lists over the pair type, and Python's `heapq` (a binary
min-heap popped with `heappop`, which always returns the minimum element
under tuple ordering) is embedded extensionally as a list kept sorted in
ascending tuple order whose head is popped.
-/

set_option autoImplicit false

namespace SpatialNet

/-- The Python exception classes that the embedded code can raise. -/
inductive PyError where
  /-- `TypeError`: e.g. `functools.reduce` over an empty iterable, or
  building a `set` out of unhashable elements. -/
  | typeError
  /-- `AttributeError`: attribute access on `None`. -/
  | attributeError
  /-- `NameError`: reference to an undefined name. -/
  | nameError
  /-- `KeyError`: missing dict key. -/
  | keyError
  /-- `StopIteration`: the iterator-exhaustion signal. -/
  | stopIteration
deriving Repr, DecidableEq

/-! ## Interval (src/common/regions/interval.py) -/

/-- `Interval`: a closed numeric range with `lower` and `upper` bounds
(source floats embedded as `ℚ`). -/
structure Interval where
  lower : ℚ
  upper : ℚ
deriving Repr, DecidableEq

/-- `Interval.__init__` (interval.py lines 26-48): swaps the two bounds
when `lower > upper`. -/
def Interval.make (lower upper : ℚ) : Interval :=
  if lower > upper then ⟨upper, lower⟩ else ⟨lower, upper⟩

/-- `Interval.length` (interval.py line 65): `abs(upper - lower)`. -/
def Interval.length (i : Interval) : ℚ :=
  |i.upper - i.lower|

/-- `Interval.is_intersecting` (interval.py lines 176-237).  Equal
intervals always intersect; otherwise the comparison is strict unless
`inc_bounds` is set. -/
def Interval.is_intersecting (self other : Interval) (inc_bounds : Bool) : Bool :=
  if self = other then true
  else if inc_bounds then decide (other.lower ≤ self.upper ∧ self.lower ≤ other.upper)
  else decide (other.lower < self.upper ∧ self.lower < other.upper)

/-- `Interval.get_intersection` (interval.py lines 240-272): `None` when
not intersecting, otherwise `Interval(max(lowers), min(uppers))` (built
through the swapping constructor). -/
def Interval.get_intersection (self other : Interval) (inc_bounds : Bool) :
    Option Interval :=
  if ¬ (self.is_intersecting other inc_bounds) then none
  else some (Interval.make (max self.lower other.lower) (min self.upper other.upper))

/-- The left fold performed by `functools.reduce(intersect, intervals)`
inside `Interval.from_intersection` (interval.py line 304).  When the
accumulator has become `None` and elements remain, the next step evaluates
`None.get_intersection(b)`, which raises `AttributeError` (the
`except AssertionError` handler on line 305 does not catch it, and nothing
in the module raises `AssertionError`). -/
def Interval.reduceIntersect : Option Interval → List Interval →
    Except PyError (Option Interval)
  | acc, [] => .ok acc
  | some a, b :: bs => Interval.reduceIntersect (a.get_intersection b false) bs
  | none, _ :: _ => .error .attributeError

/-- `Interval.from_intersection` (interval.py lines 278-306):
`reduce(intersect, intervals)`.  `functools.reduce` over an empty iterable
with no initial value raises `TypeError`. -/
def Interval.from_intersection (intervals : List Interval) :
    Except PyError (Option Interval) :=
  match intervals with
  | [] => .error .typeError
  | x :: xs => Interval.reduceIntersect (some x) xs

/-! ## Region (src/common/regions/region.py) and TracedObject -/

/-- `Region`: an axis-aligned box, one `Interval` per dimension, plus the
`id` and `ancestors` fields installed by `IdObject` / `TracedObject`
(a Python set of id strings, embedded as a list). -/
structure Region where
  id : String
  ancestors : List String
  factors : List Interval
  dimension : Nat
deriving Repr, DecidableEq

/-- `Region.__init__` with the default `ancestors=None`
(region.py lines 31-55 together with traced_object.py lines 35-36):
the new Region is its own sole ancestor, and `dimension = len(factors)`. -/
def Region.make (factors : List Interval) (id : String) : Region :=
  { id := id, ancestors := [id], factors := factors,
    dimension := factors.length }

/-- `TracedObject.__init__` (traced_object.py lines 22-43) on the argument
shape `Region.from_intersection` passes: a list of the operands' ancestor
id-sets.  Python sets carry no `ancestors` attribute, so for a non-empty
list the `elif all(hasattr(a, 'ancestors') ...)` guard is false and the
`else` branch runs `set(ancestors)` — whose elements are `set` objects,
which are unhashable, so it raises `TypeError`.  For an empty list the
`elif` guard is vacuously true and `set(a for a.ancestors in ancestors)`
iterates nothing, yielding the empty set. -/
def TracedObject.ancestorsFromSets (sets : List (List String)) :
    Except PyError (List String) :=
  match sets with
  | [] => .ok []
  | _ :: _ => .error .typeError

/-- Insertion sort on strings (Python's `sorted` over `str`), used for the
generated id of `Region.from_intersection`. -/
def insertStr (s : String) : List String → List String
  | [] => [s]
  | t :: ts => if s < t then s :: t :: ts else t :: insertStr s ts

/-- See `insertStr`. -/
def sortStr (l : List String) : List String :=
  l.foldr insertStr []

/-- `Region.is_intersecting` (region.py lines 184-256): true iff every
dimension's Interval pair intersects.  The source iterates
`enumerate(self.factors)` and indexes `other.factors[i]`; for Regions of
equal dimension (the only shape every caller in the repository builds)
this is exactly the zip below.  The `inc_bounds` parameter is accepted by
the source but not forwarded to `Interval.is_intersecting` on line 255,
so it is unused. -/
def Region.is_intersecting (self other : Region) (_inc_bounds : Bool) : Bool :=
  (self.factors.zip other.factors).all fun ab =>
    ab.1.is_intersecting ab.2 false

/-- `Region.from_intersection` (region.py lines 534-564): an id joined
from the sorted operand ids when none is given, factor-wise
`Interval.from_intersection` over the zipped factor lists, `None` if any
dimension's intersection is empty, and finally
`cls(factors, id, [r.ancestors for r in regions])` — whose
`TracedObject.__init__` step is `TracedObject.ancestorsFromSets`. -/
def Region.from_intersection (regions : List Region) (id : String) :
    Except PyError (Option Region) := do
  let id := if id = "" then
      String.intercalate "_" (sortStr (regions.map Region.id))
    else id
  let groups := (regions.map Region.factors).transpose
  let factors ← groups.mapM Interval.from_intersection
  if factors.any Option.isNone then
    return none
  let ancestors ← TracedObject.ancestorsFromSets (regions.map Region.ancestors)
  return some { id := id, ancestors := ancestors,
                factors := factors.reduceOption,
                dimension := factors.length }

/-- `Region.get_intersection` (region.py lines 289-337): `None` when
`is_intersecting` fails, otherwise `Region.from_intersection([self, other])`. -/
def Region.get_intersection (self other : Region) (inc_bounds : Bool) :
    Except PyError (Option Region) :=
  if ¬ (self.is_intersecting other inc_bounds) then .ok none
  else Region.from_intersection [self, other] ""

/-- `Region.get_union_size` (region.py lines 368-411).  The parameter is
named `other`, but the body reads
`if not self.is_intersecting(that): ...` — `that` is an undefined name,
so the very first expression of the body raises `NameError` on every
call (the later `get_intersection_size(that)` is likewise unresolvable). -/
def Region.get_union_size (_self _other : Region) : Except PyError ℚ :=
  .error .nameError

/-- `Region.from_coords` (region.py lines 481-501): one Interval per
paired coordinate, `ancestors=None` defaulted. -/
def Region.from_coords (lower upper : List ℚ) (id : String) : Region :=
  Region.make ((lower.zip upper).map fun lu => Interval.make lu.1 lu.2) id

/-- Follows the spec's words, for comparison with the source's
`get_union_size`: "`size` (product of all lengths)" and
"`union_size(other)`: `size(self) + size(other)` if disjoint, else
`size(self) + size(other) - intersection_size(other)`", with the
intersection size the product of the dimension-wise intersection
lengths. -/
def Region.size_spec (r : Region) : ℚ :=
  (r.factors.map Interval.length).prod

/-- Follows the spec's words; see `Region.size_spec`. -/
def Region.union_size_spec (self other : Region) : ℚ :=
  if ¬ (self.is_intersecting other false) then
    self.size_spec + other.size_spec
  else
    self.size_spec + other.size_spec -
      ((self.factors.zip other.factors).map fun ab =>
        ((ab.1.get_intersection ab.2 false).map Interval.length).getD 0).prod

/-! ## Serialization (serializable_object.py, region.py, region_stream.py) -/

/-- A JSON-like value, the codomain of `to_dict` serialization. -/
inductive JVal where
  | num (q : ℚ)
  | str (s : String)
  | arr (items : List JVal)
  | obj (fields : List (String × JVal))

/-- Field lookup in a serialized dict (first matching key). -/
def lookupS (d : List (String × JVal)) (k : String) : Option JVal :=
  (d.find? fun kv => kv.1 = k).map Prod.snd

/-- View a `JVal` as an array. -/
def JVal.asArr : JVal → Option (List JVal)
  | .arr l => some l
  | _ => none

/-- View a `JVal` as a dict. -/
def JVal.asObj : JVal → Option (List (String × JVal))
  | .obj l => some l
  | _ => none

/-- `SerializableObject.to_dict` (serializable_object.py lines 16-34) on an
`Interval`: `jsonpickle.Pickler(unpicklable=False).flatten` emits the
instance attributes in insertion order — `lower` then `upper`. -/
def Interval.to_dict (i : Interval) : JVal :=
  .obj [("lower", .num i.lower), ("upper", .num i.upper)]

/-- `SerializableObject.to_dict` on a `Region`: the flattened instance
attributes in insertion order — `id` (set by `IdObject.__init__`),
`ancestors` (set by `TracedObject.__init__`; a Python set, flattened to a
list), `factors`, and `dimension` (set by `Region.__init__`). -/
def Region.to_dict (r : Region) : JVal :=
  .obj [("id", .str r.id),
        ("ancestors", .arr (r.ancestors.map JVal.str)),
        ("factors", .arr (r.factors.map Interval.to_dict)),
        ("dimension", .num r.dimension)]

/-- `Interval.from_dict` (interval.py lines 309-324):
`Interval(**dictObject)` — succeeds exactly on a dict whose keys are
`lower` and `upper` with numeric values (any other keyword set raises
`TypeError`), and goes through the swapping constructor. -/
def Interval.from_dict (d : List (String × JVal)) : Except PyError Interval :=
  match d with
  | [("lower", .num l), ("upper", .num u)] => .ok (Interval.make l u)
  | [("upper", .num u), ("lower", .num l)] => .ok (Interval.make l u)
  | _ => .error .typeError

/-- `TracedObject.__init__` (traced_object.py lines 22-43) on the argument
shape `Region.from_dict` passes: `None` (key absent, default) or a list of
id strings.  Strings carry no `ancestors` attribute, so a non-empty list
takes the `else` branch `set(ancestors)` (strings are hashable — no
error); an empty list takes the vacuous `elif` branch, yielding the empty
set.  Set formation is embedded as deduplication. -/
def TracedObject.ancestorsFromIds (selfId : String) :
    Option (List String) → List String
  | none => [selfId]
  | some ids => ids.dedup

/-- One element of the comprehension
`[Interval.from_dict(f) for f in dictObject['factors']]`
(region.py lines 581-582): `Interval(**f)` needs a mapping. -/
def Region.parseFactor (f : JVal) : Except PyError Interval :=
  match f.asObj with
  | some fo => Interval.from_dict fo
  | none => throw PyError.typeError

/-- The comprehension of region.py lines 581-582; see
`Region.parseFactor`. -/
def Region.parseFactors : List JVal → Except PyError (List Interval)
  | [] => .ok []
  | f :: fs => do
    let i ← Region.parseFactor f
    let rest ← Region.parseFactors fs
    return i :: rest

/-- `Region.from_dict` (region.py lines 567-585): replaces
`dictObject['factors']` by parsed Intervals (`KeyError` when absent), then
`del dictObject['dimension']` (`KeyError` when absent), then
`Region(**dictObject)` — so any key besides `factors`, `id` and
`ancestors` left after the deletion raises `TypeError`.  A missing `id`
defaults to `''`, for which `IdObject.__init__` draws a fresh UUID; no
verified property observes a generated id, so that draw is embedded as the
placeholder id `"uuid"`. -/
def Region.from_dict (d : List (String × JVal)) : Except PyError Region := do
  let fj ← match lookupS d "factors" with
    | some v => pure v
    | none => throw PyError.keyError
  let fl ← match fj.asArr with
    | some l => pure l
    | none => throw PyError.typeError
  let factors ← Region.parseFactors fl
  if (lookupS d "dimension").isNone then
    throw PyError.keyError
  if ¬ (d.map Prod.fst).all
      (fun k => k = "factors" ∨ k = "dimension" ∨ k = "id" ∨ k = "ancestors") then
    throw PyError.typeError
  let id := match lookupS d "id" with
    | some (.str s) => s
    | _ => "uuid"
  let ancestors := match lookupS d "ancestors" with
    | some (.arr l) => TracedObject.ancestorsFromIds id
        (some (l.map fun v => match v with | .str s => s | _ => ""))
    | _ => TracedObject.ancestorsFromIds id none
  return { id := id, ancestors := ancestors, factors := factors,
           dimension := factors.length }

/-- `RegionStream.deserialize_item` (region_stream.py lines 72-87):
delegates to `Region.from_dict`. -/
def RegionStream.deserialize_item (d : List (String × JVal)) :
    Except PyError Region :=
  Region.from_dict d

/-! ## Streams (base_stream.py, region_stream.py)

A `BaseStream`'s item source is embedded as the list of items its
single-pass producer would yield. -/

/-- `BaseStream.__next__` (base_stream.py lines 49-52): yields the next
item, raising `StopIteration` — the iterator-exhaustion signal — when the
producer is exhausted. -/
def BaseStream.nextItem {α : Type} : List α → Except PyError (α × List α)
  | [] => .error .stopIteration
  | x :: xs => .ok (x, xs)

/-- `BaseStream.checkpoint` (base_stream.py lines 55-84), for a stream of
plain (non-stream) items: drains the producer into a list, raises
`StopIteration` when that list is empty, and otherwise returns the list
(the producer is reset to replay it). -/
def BaseStream.checkpoint {α : Type} (items : List α) :
    Except PyError (List α) :=
  match items with
  | [] => .error .stopIteration
  | x :: xs => .ok (x :: xs)

/-- `RegionStream.calculate_bounds` (region_stream.py lines 45-69): drains
the regions, raises `StopIteration` when there are none, and otherwise
builds the enclosing Region from the per-dimension minima of lowers and
maxima of uppers, ranging the dimensions over the first region's
`dimension` (every `RegionStream` the repository builds is
dimension-uniform, so indexing `r.factors[d]` stays in range; the
embedding reads factor `d` through `getD`, whose default is never
reached on such streams). -/
def RegionStream.calculate_bounds (regions : List Region) :
    Except PyError Region :=
  match regions with
  | [] => .error .stopIteration
  | r0 :: rs =>
    let factor := fun (r : Region) (d : Nat) =>
      (r.factors.getD d (Interval.make 0 0))
    let lower := (List.range r0.dimension).map fun d =>
      (rs.map fun r => (factor r d).lower).foldl min (factor r0 d).lower
    let upper := (List.range r0.dimension).map fun d =>
      (rs.map fun r => (factor r d).upper).foldl max (factor r0 d).upper
    .ok (Region.from_coords lower upper "")

/-! ## Proximity graphs (trajectory_net_constructor.py) -/

/-- A particle: an id and an N-dimensional position
(src/common/trajectories/particle.py). -/
structure Particle where
  id : Nat
  position : List ℚ
deriving Repr, DecidableEq

/-- Squared Euclidean distance between two position vectors. -/
def sqDist (p q : List ℚ) : ℚ :=
  ((p.zip q).map fun ab => (ab.1 - ab.2) ^ 2).sum

/-- The comparison `pdist(...) < distance` of
trajectory_net_constructor.py line 55, on the squared distance:
`scipy.spatial.distance.pdist` computes the Euclidean norm
`sqrt s`, and over the reals `sqrt s < d ↔ 0 ≤ d ∧ s < d * d`
(for `s ≥ 0`), which is the exact rational test below. -/
def distLt (s d : ℚ) : Bool :=
  decide (0 ≤ d ∧ s < d * d)

/-- `itertools.combinations(range(n), 2)`: all index pairs `(i, j)` with
`i < j < n`, in lexicographic order — also the order of `pdist`'s output,
which line 54 of trajectory_net_constructor.py relies on. -/
def combIdx (n : Nat) : List (Nat × Nat) :=
  (List.range n).flatMap fun i =>
    ((List.range n).filter fun j => i < j).map fun j => (i, j)

/-- A proximity-graph snapshot: the node list, edge list and timestamp of
the `networkx.Graph` built per timestamp. -/
structure PGraph where
  time : Int
  nodes : List Nat
  edges : List (Nat × Nat)
deriving Repr, DecidableEq

/-- Undirected edge membership in a `networkx.Graph`. -/
def PGraph.hasEdge (g : PGraph) (a b : Nat) : Prop :=
  (a, b) ∈ g.edges ∨ (b, a) ∈ g.edges

instance (g : PGraph) (a b : Nat) : Decidable (g.hasEdge a b) := by
  unfold PGraph.hasEdge
  infer_instance

/-- `TrajectoryNetConstructor.get_proximitynet`
(trajectory_net_constructor.py lines 22-62): nodes are all particle ids;
the candidate index pairs `combinations(range(len(pos)), 2)` are filtered
by `all_distances < distance` (strict, Euclidean — see `distLt`), and each
surviving pair adds the edge between the two particles' ids after the
(always-true for `i < j`) `node_from != node_to` index check.  The
`len(pos) > 1` guard is implied: `combIdx n = []` for `n ≤ 1`.  The graph
is tagged with the snapshot's timestamp. -/
def get_proximitynet (particles : List Particle) (time : Int) (distance : ℚ) :
    PGraph :=
  { time := time
    nodes := particles.map Particle.id
    edges := (combIdx particles.length).filterMap fun ij =>
      let p := particles.getD ij.1 ⟨0, []⟩
      let q := particles.getD ij.2 ⟨0, []⟩
      if distLt (sqDist p.position q.position) distance then
        if ij.1 ≠ ij.2 then some (p.id, q.id) else none
      else none }

/-! ## Contact-interval extraction (trajectory_edge_converter.py)

The converter consumes a stream of graph snapshots; here a snapshot is a
`PGraph`.  Dicts keyed by node pairs are association lists, and `heapq`
(see the file header) is a list kept sorted in ascending `(time, pair)`
tuple order. -/

/-- A canonical unordered node pair, `tuple(sorted(edge))`. -/
abbrev EPair := Nat × Nat

/-- `tuple(sorted(edge))` (trajectory_edge_converter.py lines 59 and
102). -/
def normPair (e : EPair) : EPair :=
  if e.1 ≤ e.2 then e else (e.2, e.1)

/-- Insertion into a sorted, deduplicated pair list: the embedding of a
Python set of pairs (`set(tuple(sorted(edge)) for edge in G.edges)`).
Only membership and set difference of these sets are consumed, so any
duplicate-free representation is extensionally faithful; sorted order
makes the runs deterministic. -/
def insertPair (p : EPair) : List EPair → List EPair
  | [] => [p]
  | q :: qs =>
    if p = q then q :: qs
    else if p.1 < q.1 ∨ (p.1 = q.1 ∧ p.2 < q.2) then p :: q :: qs
    else q :: insertPair p qs

/-- The edge set of a snapshot, normalized:
`set(tuple(sorted(edge)) for edge in G.edges)`. -/
def edgeSet (g : PGraph) : List EPair :=
  (g.edges.map normPair).foldr insertPair []

/-- Set difference of pair sets (`next_edges - prev_edges` and its
mirror). -/
def pairDiff (a b : List EPair) : List EPair :=
  a.filter fun p => ¬ p ∈ b

/-- One contact period `(start_time, end_time_or_None)`. -/
abbrev Period := Int × Option Int

/-- A contact-interval record
`{'from': ..., 'to': ..., 'first': ..., 'last': ...}`. -/
structure EdgeRec where
  efrom : Nat
  eto : Nat
  first : Int
  last : Int
deriving Repr, DecidableEq

/-- First-match lookup in an association list keyed by pairs (a Python
dict read `active[edge]`; the keys a run produces are unique). -/
def lookupA {α : Type} : List (EPair × α) → EPair → Option α
  | [], _ => none
  | (k, v) :: rest, p => if k = p then some v else lookupA rest p

/-- Write-through update of an association list (a Python dict write
`active[edge] = v`): replaces the first binding of the key, or appends a
new one. -/
def updateA {α : Type} : List (EPair × α) → EPair → α → List (EPair × α)
  | [], p, v => [(p, v)]
  | (k, w) :: rest, p, v =>
    if k = p then (p, v) :: rest else (k, w) :: updateA rest p v

/-- Key removal from an association list (`del active[edge]`; the dicts a
run produces bind each key once). -/
def eraseA {α : Type} : List (EPair × α) → EPair → List (EPair × α)
  | [], _ => []
  | (k, w) :: rest, p =>
    if k = p then eraseA rest p else (k, w) :: eraseA rest p

/-! ### Unsorted mode: `get_edge` (lines 35-73) -/

/-- State carried across snapshots by `get_edge`: the `active` dict from
pair to its single open period, and the previous snapshot's edge set. -/
structure UState where
  active : List (EPair × Period)
  prev : List EPair

/-- The closing loop of `get_edge` (lines 66-71): for each pair in
`prev_edges - next_edges`, rewrite `active[edge]` to
`(active[edge][0], G.time - 1)` — a `KeyError` if the pair is not a key —
then emit the record and delete the pair. -/
def uClose (t : Int) :
    List (EPair × Period) → List EPair →
    Except PyError (List (EPair × Period) × List EdgeRec)
  | a, [] => .ok (a, [])
  | a, e :: es => do
    match lookupA a e with
    | none => throw PyError.keyError
    | some per =>
      let rec0 : EdgeRec :=
        { efrom := e.1, eto := e.2, first := per.1, last := t - 1 }
      let (a', recs) ← uClose t (eraseA a e) es
      return (a', rec0 :: recs)

/-- One snapshot of `get_edge` (lines 54-71): compute the normalized edge
set, open `(G.time, None)` for each newly connected pair, then close,
emit and delete each newly disconnected pair. -/
def uStep (st : UState) (g : PGraph) :
    Except PyError (UState × List EdgeRec) := do
  let next := edgeSet g
  let opens := pairDiff next st.prev
  let closes := pairDiff st.prev next
  let active1 := opens.foldl (fun a e => updateA a e (g.time, none)) st.active
  let (active2, recs) ← uClose g.time active1 closes
  return ({ active := active2, prev := next }, recs)

/-- `get_edge` over a whole snapshot sequence: the records of every
snapshot in order.  Nothing is emitted after the final snapshot — the
`for` loop simply ends. -/
def uRun : UState → List PGraph → Except PyError (List EdgeRec)
  | _, [] => .ok []
  | st, g :: gs => do
    let (st', recs) ← uStep st g
    let rest ← uRun st' gs
    return recs ++ rest

/-- `TrajectoryEdgeConverter.get_edge` on a snapshot list, from the empty
initial state (`active = {}`, `next_edges = set()`). -/
def get_edge (gs : List PGraph) : Except PyError (List EdgeRec) :=
  uRun { active := [], prev := [] } gs

/-! ### Sorted mode: `get_edge_sorted` (lines 76-129) -/

/-- Tuple order on heap entries `(start_time, pair)`: Python compares
tuples lexicographically. -/
def entryLe (x y : Int × EPair) : Bool :=
  decide (x.1 < y.1) ||
    (decide (x.1 = y.1) &&
      (decide (x.2.1 < y.2.1) ||
        (decide (x.2.1 = y.2.1) && decide (x.2.2 ≤ y.2.2))))

/-- `heapq.heappush`: the heap is embedded as a list sorted ascending
under `entryLe`, so a push is an ordered insertion.  `heappop` — always
the minimum element — is then the head. -/
def heapInsert (x : Int × EPair) : List (Int × EPair) → List (Int × EPair)
  | [] => [x]
  | y :: ys => if entryLe x y then x :: y :: ys else y :: heapInsert x ys

/-- State carried across snapshots by `get_edge_sorted`: the `active` dict
from pair to its FIFO list of periods, the heap, and the previous edge
set. -/
structure SState where
  active : List (EPair × List Period)
  heap : List (Int × EPair)
  prev : List EPair

/-- Line 113-114 of trajectory_edge_converter.py, verbatim:
`active[edge][len(active[edge])-1] = (active[edge][0][0], G.time-1)` —
the LAST period of the pair's list is overwritten, but its start time is
read from the FIRST period (`[0][0]`), not from the last one.  Both
indexings raise `IndexError` on an empty list (the `none` case is hoisted
into `sClose`). -/
def closeLast (l : List Period) (t : Int) (h : Period) : List Period :=
  l.set (l.length - 1) (h.1, some (t - 1))

/-- The closing loop of `get_edge_sorted` (lines 112-114): for each pair
in `prev_edges - next_edges`, rewrite the last period via `closeLast`
(`KeyError` on a missing key, `IndexError`-as-failure on an empty
list). -/
def sClose (t : Int) :
    List (EPair × List Period) → List EPair →
    Except PyError (List (EPair × List Period))
  | a, [] => .ok a
  | a, e :: es =>
    match lookupA a e with
    | none => throw PyError.keyError
    | some [] => throw PyError.keyError
    | some (h :: rest) => sClose t (updateA a e (closeLast (h :: rest) t h)) es

/-- The flush loop of `get_edge_sorted` (lines 117-127):
`while len(heap) > 0 and active[heap[0][1]][0][1] is not None`, pop the
heap head, dequeue the front of that pair's period list, emit it as a
record, and delete the pair when its list becomes empty.  The guard's
dict and list indexings raise on a missing key or empty list. -/
def sFlush :
    List (Int × EPair) → List (EPair × List Period) →
    Except PyError (List (Int × EPair) × List (EPair × List Period) × List EdgeRec)
  | [], a => .ok ([], a, [])
  | (t, e) :: hs, a => do
    match lookupA a e with
    | none => throw PyError.keyError
    | some [] => throw PyError.keyError
    | some ((_s, none) :: _rest) => .ok ((t, e) :: hs, a, [])
    | some ((s, some last) :: rest) =>
      let a1 := if rest.isEmpty then eraseA a e else updateA a e rest
      let rec0 : EdgeRec := { efrom := e.1, eto := e.2, first := s, last := last }
      let (h2, a2, recs) ← sFlush hs a1
      return (h2, a2, rec0 :: recs)

/-- The body of the opening loop of `get_edge_sorted` (lines 105-109):
push `(G.time, edge)` onto the heap and append `(G.time, None)` to
`active.get(edge, [])`. -/
def sOpen (t : Int)
    (st : List (Int × EPair) × List (EPair × List Period)) (e : EPair) :
    List (Int × EPair) × List (EPair × List Period) :=
  (heapInsert (t, e) st.1,
   updateA st.2 e (((lookupA st.2 e).getD []) ++ [(t, none)]))

/-- One snapshot of `get_edge_sorted` (lines 97-127): compute the
normalized edge set; run the opening loop (`sOpen`) over the newly
connected pairs; close the newly disconnected pairs (`sClose`, with the
start-time slip of `closeLast`); then flush the heap (`sFlush`). -/
def sStep (st : SState) (g : PGraph) :
    Except PyError (SState × List EdgeRec) := do
  let next := edgeSet g
  let opens := pairDiff next st.prev
  let closes := pairDiff st.prev next
  let (heap1, active1) := opens.foldl (sOpen g.time) (st.heap, st.active)
  let active2 ← sClose g.time active1 closes
  let (heap2, active3, recs) ← sFlush heap1 active2
  return ({ active := active3, heap := heap2, prev := next }, recs)

/-- `get_edge_sorted` over a whole snapshot sequence, also returning the
final state (so that the state "after each snapshot" is the final state
of the corresponding prefix run).  Nothing is emitted after the final
snapshot — the `for` loop simply ends, leaving still-open periods, and
any closed periods buried under them in the heap, unflushed. -/
def sRun : SState → List PGraph → Except PyError (SState × List EdgeRec)
  | st, [] => .ok (st, [])
  | st, g :: gs => do
    let (st', recs) ← sStep st g
    let (st'', rest) ← sRun st' gs
    return (st'', recs ++ rest)

/-- `TrajectoryEdgeConverter.get_edge_sorted` on a snapshot list, from the
empty initial state (`active = {}`, `heap = []`, `next_edges = set()`). -/
def get_edge_sorted (gs : List PGraph) : Except PyError (List EdgeRec) :=
  (sRun { active := [], heap := [], prev := [] } gs).map Prod.snd

/-! ### State predicates used by the invariant proofs -/

/-- Every period a pair holds in `active` is still open. -/
def AllOpen (a : List (EPair × List Period)) (p : EPair) : Prop :=
  ∀ l, lookupA a p = some l → ∀ per ∈ l, per.2 = none

/-- The number of heap entries referencing a pair. -/
def heapCount (p : EPair) (h : List (Int × EPair)) : Nat :=
  (h.filter fun e => e.2 = p).length

/-- The length of a pair's period list in `active` (0 when the pair is
not a key). -/
def activeLen (a : List (EPair × List Period)) (p : EPair) : Nat :=
  ((lookupA a p).getD []).length

/-- The invariant of `get_edge_sorted`'s state: per pair, the heap holds
exactly as many entries as the pair's `active` list has periods; every
list stored in `active` is non-empty; and every pair of the previous
edge set is a key of `active` whose last period is still open. -/
def SInv (st : SState) : Prop :=
  (∀ p, heapCount p st.heap = activeLen st.active p) ∧
  (∀ p l, lookupA st.active p = some l → l ≠ []) ∧
  (∀ p ∈ st.prev, ∃ l, lookupA st.active p = some l ∧
    ∃ s, l.getLast? = some (s, none))

/-! ## Concrete inputs used by the theorems -/

/-- Snapshot sequence with three pairs — `(1,2)`, `(3,4)`, `(5,6)` —
where `(3,4)` disconnects, reconnects while its first period is still
buried in the heap under the still-open `(0, (1,2))` entry, and
disconnects again; everything closes at time 4. -/
def stackGraphs : List PGraph :=
  [ ⟨0, [1, 2, 3, 4], [(1, 2), (3, 4)]⟩,
    ⟨1, [1, 2, 5, 6], [(1, 2), (5, 6)]⟩,
    ⟨2, [1, 2, 3, 4, 5, 6], [(1, 2), (3, 4), (5, 6)]⟩,
    ⟨3, [1, 2, 5, 6], [(1, 2), (5, 6)]⟩,
    ⟨4, [], []⟩ ]

/-- Spec scenario 3: one pair `(1,2)` connected in the snapshots at times
0-2, disconnected at 3 (and 4), connected again at 5 and 6; the stream
ends there (no snapshot at time 7 observes a disconnection). -/
def scenario3 : List PGraph :=
  [ ⟨0, [1, 2], [(1, 2)]⟩,
    ⟨1, [1, 2], [(1, 2)]⟩,
    ⟨2, [1, 2], [(1, 2)]⟩,
    ⟨3, [1, 2], []⟩,
    ⟨4, [1, 2], []⟩,
    ⟨5, [1, 2], [(1, 2)]⟩,
    ⟨6, [1, 2], [(1, 2)]⟩ ]

/-- Spec scenario 2: three particles at `(0,0)`, `(1,0)` and `(100,100)`. -/
def particles3 : List Particle :=
  [⟨0, [0, 0]⟩, ⟨1, [1, 0]⟩, ⟨2, [100, 100]⟩]

/-- Spec scenario 4, first operand: `Region.from_coords([0,0],[10,10])`. -/
def regionA : Region := Region.from_coords [0, 0] [10, 10] "a"

/-- Spec scenario 4, second operand: `Region.from_coords([5,5],[15,15])`. -/
def regionB : Region := Region.from_coords [5, 5] [15, 15] "b"

/-! ## Association-list lemmas -/

theorem lookupA_updateA {α : Type} (a : List (EPair × α)) (k q : EPair) (v : α) :
    lookupA (updateA a k v) q = if q = k then some v else lookupA a q := by
  induction a with
  | nil =>
    by_cases h : q = k
    · subst h; simp [updateA, lookupA]
    · simp [updateA, lookupA, h, Ne.symm h]
  | cons kv rest ih =>
    obtain ⟨k', w⟩ := kv
    by_cases hk : k' = k
    · subst hk
      by_cases hq : q = k'
      · subst hq; simp [updateA, lookupA]
      · simp [updateA, lookupA, hq, Ne.symm hq]
    · by_cases hq : q = k'
      · subst hq
        simp [updateA, lookupA, hk, fun h : q = k => hk (h ▸ rfl)]
      · simp [updateA, lookupA, hk, Ne.symm hq, ih]

theorem lookupA_eraseA {α : Type} (a : List (EPair × α)) (k q : EPair) :
    lookupA (eraseA a k) q = if q = k then none else lookupA a q := by
  induction a with
  | nil => by_cases h : q = k <;> simp [eraseA, lookupA, h]
  | cons kv rest ih =>
    obtain ⟨k', w⟩ := kv
    by_cases hk : k' = k
    · subst hk
      by_cases hq : q = k'
      · subst hq; simp [eraseA, lookupA, ih]
      · simp [eraseA, lookupA, hq, Ne.symm hq, ih]
    · by_cases hq : q = k'
      · subst hq
        simp [eraseA, lookupA, hk, fun h : q = k => hk (h ▸ rfl)]
      · simp [eraseA, lookupA, hk, Ne.symm hq, ih]

/-! ## C1 and C2: the sorted extractor's start-time slip -/

/-- C1: the claim states that `get_edge_sorted` always emits records
non-decreasing in `first`.  It does not: on `stackGraphs` — a time-ordered
snapshot sequence in which pair `(3,4)` reconnects before its earlier
period is flushed — the emitted `first` fields are `[0, 0, 1, 0]`,
because line 113 of trajectory_edge_converter.py overwrites the newly
closed LAST period's start time with the FIRST period's start time
(`active[edge][0][0]` instead of the last entry's start), so the period
opened at time 2 is emitted as `first = 0` after a record with
`first = 1`. -/
theorem get_edge_sorted_not_sorted_on_stack :
    get_edge_sorted stackGraphs =
      .ok [⟨1, 2, 0, 3⟩, ⟨3, 4, 0, 0⟩, ⟨5, 6, 1, 3⟩, ⟨3, 4, 0, 2⟩] ∧
    ¬ List.Sorted (· ≤ ·)
        (([⟨1, 2, 0, 3⟩, ⟨3, 4, 0, 0⟩, ⟨5, 6, 1, 3⟩,
           ⟨3, 4, 0, 2⟩] : List EdgeRec).map EdgeRec.first) :=
  ⟨rfl, by decide⟩

/-- C2: the claim states that every record of either mode delimits one
maximal contact period, with the pair connected in every snapshot whose
time lies in `[first, last]`.  The sorted extractor's record
`{from 3, to 4, first 0, last 2}` on `stackGraphs` refutes this: snapshot
time 1 lies in `[0, 2]` but carries no `(3,4)` edge — the pair's true
periods are `[0,0]` and `[2,2]`, exactly what the unsorted extractor
emits for it — and the slip of line 113 (see
`get_edge_sorted_not_sorted_on_stack`) stamped the period opened at
time 2 with `first = 0`. -/
theorem get_edge_sorted_misdates_stacked_period :
    get_edge_sorted stackGraphs =
      .ok [⟨1, 2, 0, 3⟩, ⟨3, 4, 0, 0⟩, ⟨5, 6, 1, 3⟩, ⟨3, 4, 0, 2⟩] ∧
    ¬ (PGraph.hasEdge ⟨1, [1, 2, 5, 6], [(1, 2), (5, 6)]⟩ 3 4) ∧
    get_edge stackGraphs =
      .ok [⟨3, 4, 0, 0⟩, ⟨3, 4, 2, 2⟩, ⟨1, 2, 0, 3⟩, ⟨5, 6, 1, 3⟩] :=
  ⟨rfl, by decide, rfl⟩

/-! ## C4: Region.get_intersection -/

/-- C4: the claim states `get_intersection` returns `None` for
non-intersecting Regions (true — first conjunct) and otherwise a Region
with factor-wise intersections and the union of the ancestor sets.  The
second part fails on the code: for the intersecting pair
`regionA`/`regionB` the call raises `TypeError`, because
`Region.from_intersection` hands `TracedObject.__init__` a list of the
operands' ancestor sets and the resulting `set(ancestors)` call puts
(unhashable) `set` objects into a set. -/
theorem get_intersection_behavior :
    (∀ A B : Region, A.is_intersecting B false = false →
      A.get_intersection B false = .ok none) ∧
    Region.get_intersection regionA regionB false = .error PyError.typeError := by
  constructor
  · intro A B h
    simp [Region.get_intersection, h]
  · rfl

/-- Witness for `get_intersection_behavior`: two concrete disjoint
Regions. -/
theorem get_intersection_behavior_witness :
    Region.get_intersection (Region.from_coords [0, 0] [1, 1] "c")
      (Region.from_coords [5, 5] [6, 6] "d") false = .ok none :=
  get_intersection_behavior.1 _ _ (by decide)

/-! ## C5: Region.get_union_size -/

/-- C5: the claim states `get_union_size` returns
`size + size - intersection_size`, 175 on spec scenario 4.  Every call
actually raises `NameError` — the body refers to the undefined name
`that` — while the spec's own formula (`Region.union_size_spec`) does
give 175 on the scenario. -/
theorem get_union_size_raises_nameerror :
    Region.get_union_size regionA regionB = .error PyError.nameError ∧
    Region.union_size_spec regionA regionB = 175 := by
  refine ⟨rfl, ?_⟩
  norm_num [Region.union_size_spec, Region.size_spec, regionA, regionB,
    Region.from_coords, Region.make, Interval.make,
    Interval.get_intersection, Interval.is_intersecting,
    Region.is_intersecting, Interval.length]

/-! ## C6: Interval.from_intersection error behavior -/

/-- C6: the claim states the fold returns `None` as soon as a pairwise
intersection fails and raises the degenerate-geometry error on `[]`.
The code disagrees twice: on `[]`, `functools.reduce` raises a plain
`TypeError` (no geometry-specific error exists in the repository), and
when a pairwise intersection fails with elements remaining the next step
calls `None.get_intersection(...)` and raises `AttributeError` (third
conjunct shows the claimed `None` outcome only survives when the failing
intersection is the final one, e.g. on a two-element list). -/
theorem from_intersection_error_behavior :
    Interval.from_intersection [] = .error PyError.typeError ∧
    Interval.from_intersection
      [Interval.make 0 1, Interval.make 2 3, Interval.make 4 5] =
      .error PyError.attributeError ∧
    Interval.from_intersection [Interval.make 0 1, Interval.make 2 3] =
      .ok none :=
  ⟨rfl, rfl, rfl⟩

/-! ## C7: empty-stream errors -/

/-- C7: the claim states that `checkpoint` and the bounds calculation
raise an `EmptyStreamError` distinct from the `EndOfSequence`
termination signal.  They do not: both `raise StopIteration` — exactly
the exception `__next__` uses to signal normal exhaustion — so the error
on an empty source and the termination signal coincide. -/
theorem empty_stream_error_not_distinct :
    BaseStream.checkpoint ([] : List Region) = .error PyError.stopIteration ∧
    RegionStream.calculate_bounds [] = .error PyError.stopIteration ∧
    BaseStream.nextItem ([] : List Region) = .error PyError.stopIteration :=
  ⟨rfl, rfl, rfl⟩

/-- C7 amended: for every sequence that yields zero items, `checkpoint`
and the bounds calculation raise `StopIteration` — the same exception
class as the normal end-of-sequence signal — so a caller cannot
distinguish an empty input source from normal exhaustion by the
exception class alone. -/
theorem empty_stream_raises_stopiteration :
    (∀ α : Type, BaseStream.checkpoint ([] : List α) =
      .error PyError.stopIteration) ∧
    RegionStream.calculate_bounds [] = .error PyError.stopIteration ∧
    (∀ α : Type, BaseStream.nextItem ([] : List α) =
      .error PyError.stopIteration) :=
  ⟨fun _ => rfl, rfl, fun _ => rfl⟩

/-! ## C9: Region serialization -/

/-- C9: the claim states Region items serialize as a dict holding only
`factors`, and that deserialization succeeds on a dict containing only
the `factors` key.  It does not: `Region.from_dict` executes
`del dictObject['dimension']`, which raises `KeyError` when the dict has
no `dimension` key. -/
theorem deserialize_factors_only_fails :
    RegionStream.deserialize_item
      [("factors", JVal.arr [JVal.obj [("lower", JVal.num 0),
                                       ("upper", JVal.num 1)]])] =
      .error PyError.keyError :=
  rfl

/-- Parsing the serialized factors of well-formed Intervals restores
them. -/
theorem parseFactors_to_dict (l : List Interval)
    (h : ∀ i ∈ l, i.lower ≤ i.upper) :
    Region.parseFactors (l.map Interval.to_dict) = .ok l := by
  induction l with
  | nil => rfl
  | cons i rest ih =>
    obtain ⟨lo, up⟩ := i
    have hi : ¬ lo > up := not_lt.mpr (h ⟨lo, up⟩ (by simp))
    have hrest := ih fun j hj => h j (by simp [hj])
    simp only [Region.parseFactors, Region.parseFactor, Interval.to_dict,
      JVal.asObj, Interval.from_dict, Interval.make, hi, if_false, hrest]
    rfl

/-- C9 amended: a persisted Region item carries the keys `id`,
`ancestors`, `factors` AND `dimension` (`to_dict` flattens every
attribute, so the dimension IS stored redundantly), and deserialization
requires the `dimension` key: it fails with `KeyError` on a dict with
only `factors` (see `deserialize_factors_only_fails`) and round-trips
`to_dict` output. -/
theorem region_serialization_shape (r : Region)
    (hf : ∀ i ∈ r.factors, i.lower ≤ i.upper)
    (ha : r.ancestors.Nodup)
    (hd : r.dimension = r.factors.length) :
    lookupS ((r.to_dict).asObj.getD []) "dimension" =
      some (.num r.dimension) ∧
    RegionStream.deserialize_item ((r.to_dict).asObj.getD []) = .ok r := by
  obtain ⟨id, ancestors, factors, dimension⟩ := r
  simp only at hf ha hd
  subst hd
  constructor
  · simp [Region.to_dict, JVal.asObj, lookupS, List.find?]
  · have hcomp :
        ((fun v => match v with | JVal.str s => s | _ => "") ∘ JVal.str) =
          fun s : String => s := rfl
    simp [RegionStream.deserialize_item, Region.from_dict, Region.to_dict,
      JVal.asObj, lookupS, List.find?, JVal.asArr,
      parseFactors_to_dict factors hf, TracedObject.ancestorsFromIds,
      hcomp, List.dedup_eq_self.mpr ha]

/-- Witness for `region_serialization_shape`: the scenario-4 Region. -/
theorem region_serialization_shape_witness :
    lookupS ((regionA.to_dict).asObj.getD []) "dimension" =
      some (.num regionA.dimension) ∧
    RegionStream.deserialize_item ((regionA.to_dict).asObj.getD []) =
      .ok regionA :=
  region_serialization_shape regionA (by decide) (by decide) rfl

/-! ## C8: proximity graphs -/

theorem combIdx_mem (n i j : Nat) : (i, j) ∈ combIdx n ↔ i < j ∧ j < n := by
  simp only [combIdx, List.mem_flatMap, List.mem_map, List.mem_filter,
    List.mem_range, decide_eq_true_eq, Prod.mk.injEq]
  constructor
  · rintro ⟨a, ha, b, ⟨hb, hab⟩, h1, h2⟩
    subst h1; subst h2; exact ⟨hab, hb⟩
  · rintro ⟨hij, hj⟩
    exact ⟨i, lt_trans hij hj, j, ⟨hj, hij⟩, rfl, rfl⟩

theorem sqDist_comm (p q : List ℚ) : sqDist p q = sqDist q p := by
  induction p generalizing q with
  | nil => cases q <;> simp [sqDist]
  | cons a p ih =>
    cases q with
    | nil => simp [sqDist]
    | cons b q =>
      have h : (a - b) ^ 2 = (b - a) ^ 2 := by ring
      simp only [sqDist, List.zip_cons_cons, List.map_cons, List.sum_cons]
        at ih ⊢
      rw [h, ih]

/-- An ordered edge of the proximity graph is exactly an index pair
`i < j` whose particles pass the strict distance test. -/
theorem mem_proximity_edges (ps : List Particle) (t : Int) (d : ℚ) (x y : Nat) :
    (x, y) ∈ (get_proximitynet ps t d).edges ↔
      ∃ i j : Nat, ∃ hi : i < ps.length, ∃ hj : j < ps.length, i < j ∧
        (ps.get ⟨i, hi⟩).id = x ∧ (ps.get ⟨j, hj⟩).id = y ∧
        distLt (sqDist (ps.get ⟨i, hi⟩).position (ps.get ⟨j, hj⟩).position) d
          = true := by
  simp only [get_proximitynet, List.mem_filterMap]
  constructor
  · rintro ⟨⟨i, j⟩, hmem, hF⟩
    rw [combIdx_mem] at hmem
    obtain ⟨hij, hj⟩ := hmem
    have hi : i < ps.length := lt_trans hij hj
    rw [List.getD_eq_getElem _ _ hi, List.getD_eq_getElem _ _ hj] at hF
    simp only at hF
    split_ifs at hF with h1 h2
    · simp only [Option.some.injEq, Prod.mk.injEq] at hF
      refine ⟨i, j, hi, hj, hij, ?_, ?_, ?_⟩
      · simp [List.get_eq_getElem, hF.1]
      · simp [List.get_eq_getElem, hF.2]
      · simpa [List.get_eq_getElem] using h1
  · rintro ⟨i, j, hi, hj, hij, hx, hy, hd⟩
    refine ⟨(i, j), (combIdx_mem ps.length i j).mpr ⟨hij, hj⟩, ?_⟩
    rw [List.getD_eq_getElem _ _ hi, List.getD_eq_getElem _ _ hj]
    simp only [List.get_eq_getElem] at hx hy hd
    simp [hd, Nat.ne_of_lt hij, hx, hy]

/-- With the snapshot's particle ids pairwise distinct (§6 requires the
source to supply a *mapping* from id to position), particles at distinct
indices have distinct ids. -/
theorem proximity_ids_ne (ps : List Particle)
    (hnd : (ps.map Particle.id).Nodup)
    (i j : Nat) (hi : i < ps.length) (hj : j < ps.length) (hne : i ≠ j) :
    (ps.get ⟨i, hi⟩).id ≠ (ps.get ⟨j, hj⟩).id := by
  intro heq
  have hi' : i < (ps.map Particle.id).length := by simpa
  have hj' : j < (ps.map Particle.id).length := by simpa
  have h2 : (ps.map Particle.id)[i] = (ps.map Particle.id)[j] := by
    simpa [List.getElem_map, List.get_eq_getElem] using heq
  exact hne (hnd.getElem_inj_iff.mp h2)

/-- The undirected-edge characterization underlying C8; `a ≠ b` encodes
"no self-edges", and `0 ≤ d ∧ sqDist < d * d` is exactly the strict
Euclidean test (see `distLt`). -/
theorem prox_char (ps : List Particle) (t : Int) (d : ℚ) (a b : Nat)
    (hnd : (ps.map Particle.id).Nodup) :
    ((get_proximitynet ps t d).hasEdge a b ↔
      (a ≠ b ∧ ∃ p, p ∈ ps ∧ ∃ q, q ∈ ps ∧ p.id = a ∧ q.id = b ∧
        0 ≤ d ∧ sqDist p.position q.position < d * d)) := by
  constructor
  · rintro (h | h)
    · rw [mem_proximity_edges] at h
      obtain ⟨i, j, hi, hj, hij, hx, hy, hd⟩ := h
      have hne := proximity_ids_ne ps hnd i j hi hj (Nat.ne_of_lt hij)
      simp only [distLt, decide_eq_true_eq] at hd
      exact ⟨hx ▸ hy ▸ hne, ps.get ⟨i, hi⟩, List.get_mem _ _ _,
        ps.get ⟨j, hj⟩, List.get_mem _ _ _, hx, hy, hd.1, hd.2⟩
    · rw [mem_proximity_edges] at h
      obtain ⟨i, j, hi, hj, hij, hx, hy, hd⟩ := h
      have hne := proximity_ids_ne ps hnd j i hj hi (Nat.ne_of_lt hij).symm
      simp only [distLt, decide_eq_true_eq] at hd
      refine ⟨hy ▸ hx ▸ hne, ps.get ⟨j, hj⟩, List.get_mem _ _ _,
        ps.get ⟨i, hi⟩, List.get_mem _ _ _, hy, hx, hd.1, ?_⟩
      rw [sqDist_comm]
      exact hd.2
  · rintro ⟨hab, p, hp, q, hq, hpa, hqb, hd0, hdsq⟩
    obtain ⟨⟨i, hi⟩, rfl⟩ := List.mem_iff_get.mp hp
    obtain ⟨⟨j, hj⟩, rfl⟩ := List.mem_iff_get.mp hq
    have hij : i ≠ j := by
      intro h
      subst h
      exact hab (hpa ▸ hqb ▸ rfl)
    rcases Nat.lt_or_ge i j with hlt | hge
    · exact Or.inl ((mem_proximity_edges ps t d a b).mpr
        ⟨i, j, hi, hj, hlt, hpa, hqb, by
          simp only [distLt, decide_eq_true_eq]; exact ⟨hd0, hdsq⟩⟩)
    · have hlt : j < i := lt_of_le_of_ne hge (Ne.symm hij)
      exact Or.inr ((mem_proximity_edges ps t d b a).mpr
        ⟨j, i, hj, hi, hlt, hqb, hpa, by
          simp only [distLt, decide_eq_true_eq]
          exact ⟨hd0, by rw [sqDist_comm]; exact hdsq⟩⟩)

/-- C8: with pairwise-distinct particle ids, the proximity graph's node
set is the snapshot's id list, and two ids are joined by an edge exactly
when they belong to two distinct particles at Euclidean distance
strictly below the threshold (`0 ≤ d ∧ sqDist < d * d` is `dist < d`
said on squares; see `distLt`) — in particular there is never a
self-edge.  On spec scenario 2 — particles at `(0,0)`, `(1,0)`,
`(100,100)` with threshold 2 — the edge list is exactly
`[(0, 1)]`: one edge, between the first two particles. -/
theorem get_proximitynet_correct :
    (∀ (ps : List Particle) (t : Int) (d : ℚ) (a b : Nat),
      (ps.map Particle.id).Nodup →
      ((get_proximitynet ps t d).hasEdge a b ↔
        (a ≠ b ∧ ∃ p, p ∈ ps ∧ ∃ q, q ∈ ps ∧ p.id = a ∧ q.id = b ∧
          0 ≤ d ∧ sqDist p.position q.position < d * d))) ∧
    (∀ (ps : List Particle) (t : Int) (d : ℚ),
      (get_proximitynet ps t d).nodes = ps.map Particle.id) ∧
    (get_proximitynet particles3 0 2).edges = [(0, 1)] := by
  refine ⟨fun ps t d a b hnd => prox_char ps t d a b hnd,
    fun ps t d => rfl, ?_⟩
  have hr : List.range 3 = [0, 1, 2] := rfl
  have g0 : particles3[0]? = some ⟨0, [0, 0]⟩ := rfl
  have g1 : particles3[1]? = some ⟨1, [1, 0]⟩ := rfl
  have g2 : particles3[2]? = some ⟨2, [100, 100]⟩ := rfl
  have d01 : distLt (sqDist [0, 0] [1, 0]) 2 = true := by
    norm_num [distLt, sqDist]
  have d02 : distLt (sqDist [0, 0] [100, 100]) 2 = false := by
    norm_num [distLt, sqDist]
  have d12 : distLt (sqDist [1, 0] [100, 100]) 2 = false := by
    norm_num [distLt, sqDist]
  simp only [get_proximitynet, combIdx,
    show particles3.length = 3 from rfl, hr]
  norm_num [List.filterMap_cons, g0, g1, g2, d01, d02, d12]

/-- Witness for `get_proximitynet_correct`: the scenario-2 snapshot has
distinct ids, and the characterization instantiated there. -/
theorem get_proximitynet_correct_witness :
    (get_proximitynet particles3 0 2).hasEdge 0 1 ↔
      (0 ≠ 1 ∧ ∃ p, p ∈ particles3 ∧ ∃ q, q ∈ particles3 ∧
        p.id = 0 ∧ q.id = 1 ∧
        (0 : ℚ) ≤ 2 ∧ sqDist p.position q.position < 2 * 2) :=
  get_proximitynet_correct.1 particles3 0 2 0 1 (by decide)

/-! ## C3: scenario 3 and the silent drop of still-open periods -/

theorem except_bind_ok {ε α β : Type} (x : α) (f : α → Except ε β) :
    (Except.ok x >>= f) = f x := rfl

theorem except_bind_error {ε α β : Type} (e : ε) (f : α → Except ε β) :
    ((Except.error e : Except ε α) >>= f) = Except.error e := rfl

theorem except_pure {ε α : Type} (x : α) : (pure x : Except ε α) = .ok x := rfl

theorem mem_pairDiff (a b : List EPair) (p : EPair) :
    p ∈ pairDiff a b ↔ p ∈ a ∧ p ∉ b := by
  simp [pairDiff]

theorem uClose_pairs (t : Int) :
    ∀ (es : List EPair) (a a' : List (EPair × Period)) (recs : List EdgeRec),
      uClose t a es = .ok (a', recs) → ∀ r ∈ recs, (r.efrom, r.eto) ∈ es := by
  intro es
  induction es with
  | nil =>
    intro a a' recs h r hr
    simp only [uClose] at h
    cases h
    simp at hr
  | cons e es ih =>
    intro a a' recs h r hr
    simp only [uClose] at h
    cases hlk : lookupA a e with
    | none => rw [hlk] at h; cases h
    | some per =>
      rw [hlk] at h
      simp only at h
      cases hrec : uClose t (eraseA a e) es with
      | error err => rw [hrec, except_bind_error] at h; cases h
      | ok pr =>
        obtain ⟨a'', recs'⟩ := pr
        rw [hrec, except_bind_ok] at h
        simp only [except_pure] at h
        cases h
        rcases List.mem_cons.mp hr with hr0 | hr'
        · subst hr0
          simp
        · exact List.mem_cons_of_mem _ (ih _ _ _ hrec r hr')

theorem uStep_no_record (st : UState) (g : PGraph) (p : EPair)
    (hp : p ∈ edgeSet g) (st' : UState) (recs : List EdgeRec)
    (h : uStep st g = .ok (st', recs)) :
    ∀ r ∈ recs, (r.efrom, r.eto) ≠ p := by
  intro r hr
  simp only [uStep] at h
  cases hcl : uClose g.time
      ((pairDiff (edgeSet g) st.prev).foldl
        (fun a e => updateA a e (g.time, none)) st.active)
      (pairDiff st.prev (edgeSet g)) with
  | error err => rw [hcl, except_bind_error] at h; cases h
  | ok pr =>
    obtain ⟨a2, recs2⟩ := pr
    rw [hcl, except_bind_ok] at h
    simp only [except_pure] at h
    cases h
    intro hcontra
    have hmem := uClose_pairs g.time _ _ _ _ hcl r hr
    rw [hcontra] at hmem
    exact ((mem_pairDiff _ _ _).mp hmem).2 hp

theorem uRun_no_record (p : EPair) :
    ∀ (gs : List PGraph), (∀ g ∈ gs, p ∈ edgeSet g) →
      ∀ st l, uRun st gs = .ok l → ∀ r ∈ l, (r.efrom, r.eto) ≠ p := by
  intro gs
  induction gs with
  | nil =>
    intro _ st l h r hr
    simp only [uRun] at h
    cases h
    simp at hr
  | cons g gs ih =>
    intro hcon st l h
    simp only [uRun] at h
    cases hstep : uStep st g with
    | error err => rw [hstep, except_bind_error] at h; cases h
    | ok pr =>
      obtain ⟨st', recs⟩ := pr
      rw [hstep, except_bind_ok] at h
      simp only at h
      cases hrest : uRun st' gs with
      | error err => rw [hrest, except_bind_error] at h; cases h
      | ok rest =>
        rw [hrest, except_bind_ok] at h
        simp only [except_pure] at h
        cases h
        intro r hr
        rcases List.mem_append.mp hr with hr1 | hr2
        · exact uStep_no_record st g p (hcon g (by simp)) st' recs hstep r hr1
        · exact ih (fun g' hg' => hcon g' (by simp [hg'])) st' rest hrest r hr2


theorem allOpen_updateA_open (a : List (EPair × List Period)) (p e : EPair)
    (t : Int) (h : AllOpen a p) :
    AllOpen (updateA a e (((lookupA a e).getD []) ++ [(t, none)])) p := by
  intro l hl per hper
  rw [lookupA_updateA] at hl
  by_cases hpe : p = e
  · rw [if_pos hpe] at hl
    injection hl with hl
    subst hl
    rcases List.mem_append.mp hper with hm | hm
    · subst hpe
      cases hold : lookupA a p with
      | none => rw [hold] at hm; simp at hm
      | some l0 =>
        rw [hold] at hm
        exact h l0 hold per hm
    · simp at hm
      rw [hm]
  · rw [if_neg hpe] at hl
    exact h l hl per hper

theorem allOpen_sOpen_fold (t : Int) (p : EPair) :
    ∀ (es : List EPair) (ha : List (Int × EPair) × List (EPair × List Period)),
      AllOpen ha.2 p → AllOpen (es.foldl (sOpen t) ha).2 p := by
  intro es
  induction es with
  | nil => intro ha h; exact h
  | cons e es ih =>
    intro ha h
    exact ih _ (allOpen_updateA_open ha.2 p e t h)

theorem sClose_lookup_not_mem (t : Int) :
    ∀ (es : List EPair) (p : EPair), p ∉ es →
      ∀ a a', sClose t a es = .ok a' → lookupA a' p = lookupA a p := by
  intro es
  induction es with
  | nil =>
    intro p _ a a' h
    simp only [sClose] at h
    cases h
    rfl
  | cons e es ih =>
    intro p hp a a' h
    simp only [sClose] at h
    cases hlk : lookupA a e with
    | none => rw [hlk] at h; cases h
    | some l =>
      cases l with
      | nil => rw [hlk] at h; cases h
      | cons hd rest =>
        rw [hlk] at h
        have hpe : p ≠ e := fun hh => hp (hh ▸ List.mem_cons_self e es)
        have hrec := ih p (fun hh => hp (List.mem_cons_of_mem _ hh)) _ _ h
        rw [hrec, lookupA_updateA, if_neg hpe]

theorem sFlush_allOpen (p : EPair) :
    ∀ (hs : List (Int × EPair)) (a : List (EPair × List Period))
      (h2 : List (Int × EPair)) (a2 : List (EPair × List Period))
      (recs : List EdgeRec),
      AllOpen a p → sFlush hs a = .ok (h2, a2, recs) →
      (∀ r ∈ recs, (r.efrom, r.eto) ≠ p) ∧ AllOpen a2 p := by
  intro hs
  induction hs with
  | nil =>
    intro a h2 a2 recs hao h
    simp only [sFlush] at h
    cases h
    exact ⟨by simp, hao⟩
  | cons te hs ih =>
    obtain ⟨t, e⟩ := te
    intro a h2 a2 recs hao h
    simp only [sFlush] at h
    cases hlk : lookupA a e with
    | none => rw [hlk] at h; cases h
    | some l =>
      cases l with
      | nil => rw [hlk] at h; cases h
      | cons per rest =>
        obtain ⟨s, oe⟩ := per
        cases oe with
        | none =>
          rw [hlk] at h
          cases h
          exact ⟨by simp, hao⟩
        | some last =>
          rw [hlk] at h
          dsimp only at h
          have hpe : p ≠ e := by
            intro hh
            subst hh
            have := hao _ hlk (s, some last) (List.mem_cons_self _ _)
            simp at this
          cases hrec : sFlush hs
              (if rest.isEmpty then eraseA a e else updateA a e rest) with
          | error err => rw [hrec, except_bind_error] at h; cases h
          | ok pr =>
            obtain ⟨hh2, aa2, rrecs⟩ := pr
            rw [hrec, except_bind_ok] at h
            simp only [except_pure, Except.ok.injEq, Prod.mk.injEq] at h
            obtain ⟨e1, e2, e3⟩ := h
            subst e1
            subst e2
            subst e3
            have hao1 : AllOpen
                (if rest.isEmpty then eraseA a e else updateA a e rest) p := by
              intro l hl per hper
              by_cases hre : rest.isEmpty
              · rw [if_pos hre, lookupA_eraseA, if_neg hpe] at hl
                exact hao l hl per hper
              · rw [if_neg hre, lookupA_updateA, if_neg hpe] at hl
                exact hao l hl per hper
            have hres := ih _ hh2 aa2 rrecs hao1 hrec
            refine ⟨?_, hres.2⟩
            intro r hr
            rcases List.mem_cons.mp hr with hr0 | hr'
            · subst hr0
              intro hcontra
              exact hpe (hcontra ▸ (Prod.mk.eta (p := e)).symm).symm
            · exact hres.1 r hr'


theorem sStep_no_record (st : SState) (g : PGraph) (p : EPair)
    (hp : p ∈ edgeSet g) (hao : AllOpen st.active p)
    (st' : SState) (recs : List EdgeRec)
    (h : sStep st g = .ok (st', recs)) :
    (∀ r ∈ recs, (r.efrom, r.eto) ≠ p) ∧ AllOpen st'.active p := by
  simp only [sStep] at h
  cases hcl : sClose g.time
      ((List.foldl (sOpen g.time) (st.heap, st.active)
        (pairDiff (edgeSet g) st.prev)).2)
      (pairDiff st.prev (edgeSet g)) with
  | error err => rw [hcl, except_bind_error] at h; cases h
  | ok active2 =>
    rw [hcl, except_bind_ok] at h
    cases hfl : sFlush
        ((List.foldl (sOpen g.time) (st.heap, st.active)
          (pairDiff (edgeSet g) st.prev)).1) active2 with
    | error err => rw [hfl, except_bind_error] at h; cases h
    | ok tr =>
      obtain ⟨h2, a3, recs2⟩ := tr
      rw [hfl, except_bind_ok] at h
      simp only [except_pure, Except.ok.injEq, Prod.mk.injEq] at h
      obtain ⟨e1, e2⟩ := h
      subst e1
      subst e2
      have hao1 : AllOpen (List.foldl (sOpen g.time) (st.heap, st.active)
          (pairDiff (edgeSet g) st.prev)).2 p :=
        allOpen_sOpen_fold g.time p _ (st.heap, st.active) hao
      have hpncl : p ∉ pairDiff st.prev (edgeSet g) := by
        intro hmem
        exact ((mem_pairDiff _ _ _).mp hmem).2 hp
      have hlkeq := sClose_lookup_not_mem g.time _ p hpncl _ _ hcl
      have hao2 : AllOpen active2 p := by
        intro l hl per hper
        rw [hlkeq] at hl
        exact hao1 l hl per hper
      have hres := sFlush_allOpen p _ active2 h2 a3 recs2 hao2 hfl
      exact ⟨hres.1, hres.2⟩

theorem sRun_no_record (p : EPair) :
    ∀ (gs : List PGraph), (∀ g ∈ gs, p ∈ edgeSet g) →
      ∀ st st' l, AllOpen st.active p → sRun st gs = .ok (st', l) →
        ∀ r ∈ l, (r.efrom, r.eto) ≠ p := by
  intro gs
  induction gs with
  | nil =>
    intro _ st st' l hao h r hr
    simp only [sRun] at h
    cases h
    simp at hr
  | cons g gs ih =>
    intro hcon st st' l hao h
    simp only [sRun] at h
    cases hstep : sStep st g with
    | error err => rw [hstep, except_bind_error] at h; cases h
    | ok pr =>
      obtain ⟨st1, recs⟩ := pr
      rw [hstep, except_bind_ok] at h
      cases hrest : sRun st1 gs with
      | error err => rw [hrest, except_bind_error] at h; cases h
      | ok pr2 =>
        obtain ⟨st2, rest⟩ := pr2
        rw [hrest, except_bind_ok] at h
        simp only [except_pure, Except.ok.injEq, Prod.mk.injEq] at h
        obtain ⟨e1, e2⟩ := h
        subst e1
        subst e2
        intro r hr
        have hstepr := sStep_no_record st g p (hcon g (by simp)) hao st1 recs hstep
        rcases List.mem_append.mp hr with h1 | h2
        · exact hstepr.1 r h1
        · exact ih (fun g' hg => hcon g' (by simp [hg])) st1 st2 rest
            hstepr.2 hrest r h2

/-- C3: on spec scenario 3 — pair `(1,2)` connected at times 0-2,
disconnected at 3 (and 4), reconnected at 5-6, stream ending before any
snapshot observes a disconnection — the sorted extractor emits exactly
one record, `{first 0, last 2}` (so that record precedes any record with
`first 5`, and the period opened at time 5 is never emitted); the
unsorted extractor emits the same single record.  More generally, in
both modes a pair that stays connected through every snapshot — and is
hence still active when the input ends — produces no record at all:
records only arise from observed disconnections, and there is no
end-of-stream flush. -/
theorem extractors_drop_open_periods :
    get_edge_sorted scenario3 = .ok [⟨1, 2, 0, 2⟩] ∧
    get_edge scenario3 = .ok [⟨1, 2, 0, 2⟩] ∧
    (∀ (gs : List PGraph) (p : EPair), (∀ g ∈ gs, p ∈ edgeSet g) →
      (∀ l, get_edge gs = .ok l → ∀ r ∈ l, (r.efrom, r.eto) ≠ p) ∧
      (∀ l, get_edge_sorted gs = .ok l → ∀ r ∈ l, (r.efrom, r.eto) ≠ p)) := by
  refine ⟨rfl, rfl, ?_⟩
  intro gs p hcon
  constructor
  · intro l h
    exact uRun_no_record p gs hcon _ l h
  · intro l h
    simp only [get_edge_sorted] at h
    cases hrun : sRun ⟨[], [], []⟩ gs with
    | error err => rw [hrun] at h; cases h
    | ok pr =>
      obtain ⟨stf, recs⟩ := pr
      rw [hrun] at h
      simp only [Except.map] at h
      injection h with h
      subst h
      exact sRun_no_record p gs hcon _ stf recs
        (fun l hl per hper => by simp [lookupA] at hl) hrun

/-- Witness for `extractors_drop_open_periods`: on the two-snapshot
stream where `(1,2)` stays connected and `(3,4)` disconnects at time 1,
the unsorted extractor's output is `[{3,4,0,0}]` and the record it
contains is not about the always-connected pair `(1,2)`. -/
theorem extractors_drop_open_periods_witness :
    (({ efrom := 3, eto := 4, first := 0, last := 0 } : EdgeRec).efrom,
      ({ efrom := 3, eto := 4, first := 0, last := 0 } : EdgeRec).eto) ≠
      ((1 : Nat), (2 : Nat)) :=
  (extractors_drop_open_periods.2.2
      [⟨0, [1, 2, 3, 4], [(1, 2), (3, 4)]⟩, ⟨1, [1, 2], [(1, 2)]⟩] (1, 2)
      (by decide)).1 [⟨3, 4, 0, 0⟩] rfl _ (by simp)

/-! ## C10: the heap/active-list invariant of the sorted extractor -/

theorem heapCount_heapInsert (x : Int × EPair) (p : EPair) :
    ∀ hp : List (Int × EPair),
      heapCount p (heapInsert x hp) =
        heapCount p hp + (if x.2 = p then 1 else 0) := by
  intro hp
  induction hp with
  | nil =>
    simp only [heapInsert, heapCount, List.filter]
    split_ifs with h <;> simp [h]
  | cons y ys ih =>
    by_cases hle : entryLe x y
    · simp only [heapInsert, hle, if_true, heapCount, List.filter_cons]
      split_ifs <;> simp_all [heapCount]
    · simp only [heapInsert, hle, if_false, heapCount, List.filter_cons]
      split_ifs <;> simp_all [heapCount]

theorem activeLen_updateA (a : List (EPair × List Period)) (k p : EPair)
    (v : List Period) :
    activeLen (updateA a k v) p =
      if p = k then v.length else activeLen a p := by
  simp only [activeLen, lookupA_updateA]
  split_ifs <;> rfl

theorem activeLen_eraseA (a : List (EPair × List Period)) (k p : EPair) :
    activeLen (eraseA a k) p = if p = k then 0 else activeLen a p := by
  simp only [activeLen, lookupA_eraseA]
  split_ifs <;> rfl

theorem sOpen_fold_inv (t : Int) :
    ∀ (es : List EPair) (h : List (Int × EPair))
      (a : List (EPair × List Period)),
      (∀ p, heapCount p h = activeLen a p) →
      (∀ p l, lookupA a p = some l → l ≠ []) →
      ((∀ p, heapCount p (es.foldl (sOpen t) (h, a)).1 =
          activeLen (es.foldl (sOpen t) (h, a)).2 p) ∧
       (∀ p l, lookupA (es.foldl (sOpen t) (h, a)).2 p = some l → l ≠ []) ∧
       (∀ p, p ∈ es → ∃ l, lookupA (es.foldl (sOpen t) (h, a)).2 p = some l ∧
          ∃ s, l.getLast? = some (s, none)) ∧
       (∀ p, p ∉ es → lookupA (es.foldl (sOpen t) (h, a)).2 p = lookupA a p)) := by
  intro es
  induction es with
  | nil =>
    intro h a h1 h2
    exact ⟨h1, h2, by simp, fun p _ => rfl⟩
  | cons e es ih =>
    intro h a h1 h2
    have hstep1 : ∀ p, heapCount p (heapInsert (t, e) h) =
        activeLen (updateA a e (((lookupA a e).getD []) ++ [(t, none)])) p := by
      intro p
      rw [heapCount_heapInsert, activeLen_updateA, h1 p]
      by_cases hpe : p = e
      · subst hpe
        simp [activeLen]
      · simp [hpe, Ne.symm hpe]
    have hstep2 : ∀ p l,
        lookupA (updateA a e (((lookupA a e).getD []) ++ [(t, none)])) p =
          some l → l ≠ [] := by
      intro p l hl
      rw [lookupA_updateA] at hl
      by_cases hpe : p = e
      · rw [if_pos hpe] at hl
        injection hl with hl
        subst hl
        simp
      · rw [if_neg hpe] at hl
        exact h2 p l hl
    have hfold : List.foldl (sOpen t) (h, a) (e :: es) =
        List.foldl (sOpen t) (heapInsert (t, e) h,
          updateA a e (((lookupA a e).getD []) ++ [(t, none)])) es := rfl
    obtain ⟨f1, f2, f3, f4⟩ := ih (heapInsert (t, e) h)
      (updateA a e (((lookupA a e).getD []) ++ [(t, none)])) hstep1 hstep2
    rw [hfold]
    refine ⟨f1, f2, ?_, ?_⟩
    · intro p hp
      rcases List.mem_cons.mp hp with hp0 | hp'
      · by_cases hpes : p ∈ es
        · exact f3 p hpes
        · subst hp0
          rw [f4 p hpes, lookupA_updateA, if_pos rfl]
          exact ⟨_, rfl, t, List.getLast?_concat _⟩
      · exact f3 p hp'
    · intro p hp
      rw [f4 p (fun hh => hp (List.mem_cons_of_mem _ hh)), lookupA_updateA,
        if_neg (fun hh : p = e => hp (by rw [hh]; exact List.mem_cons_self e es))]


theorem sClose_inv (t : Int) :
    ∀ (es : List EPair) (a : List (EPair × List Period)),
      (∀ p ∈ es, ∃ l, lookupA a p = some l ∧ l ≠ []) →
      ∃ a', sClose t a es = .ok a' ∧
        (∀ p, (lookupA a' p).map List.length =
          (lookupA a p).map List.length) ∧
        (∀ p, p ∉ es → lookupA a' p = lookupA a p) := by
  intro es
  induction es with
  | nil =>
    intro a _
    exact ⟨a, rfl, fun p => rfl, fun p _ => rfl⟩
  | cons e es ih =>
    intro a hne
    obtain ⟨l, hl, hlne⟩ := hne e (List.mem_cons_self e es)
    cases l with
    | nil => exact absurd rfl hlne
    | cons hd rest =>
      have hstep : sClose t a (e :: es) =
          sClose t (updateA a e (closeLast (hd :: rest) t hd)) es := by
        simp only [sClose, hl]
      have hpre : ∀ p ∈ es, ∃ l2,
          lookupA (updateA a e (closeLast (hd :: rest) t hd)) p = some l2 ∧
            l2 ≠ [] := by
        intro p hp
        rw [lookupA_updateA]
        by_cases hpe : p = e
        · rw [if_pos hpe]
          refine ⟨_, rfl, ?_⟩
          intro hcon
          have hlencon := congrArg List.length hcon
          simp [closeLast, List.length_set] at hlencon
        · rw [if_neg hpe]
          exact hne p (List.mem_cons_of_mem _ hp)
      obtain ⟨a', hrun, hlen, hunt⟩ := ih _ hpre
      refine ⟨a', by rw [hstep]; exact hrun, ?_, ?_⟩
      · intro p
        rw [hlen p, lookupA_updateA]
        by_cases hpe : p = e
        · rw [if_pos hpe, hpe, hl]
          simp [closeLast, List.length_set]
        · rw [if_neg hpe]
      · intro p hp
        have hpe : p ≠ e := fun hh => hp (by rw [hh]; exact List.mem_cons_self e es)
        rw [hunt p (fun hh => hp (List.mem_cons_of_mem _ hh)), lookupA_updateA,
          if_neg hpe]


theorem heapCount_cons (t : Int) (e p : EPair) (hs : List (Int × EPair)) :
    heapCount p ((t, e) :: hs) = heapCount p hs + (if e = p then 1 else 0) := by
  simp only [heapCount, List.filter_cons]
  split_ifs <;> simp_all

theorem sFlush_inv :
    ∀ (hs : List (Int × EPair)) (a : List (EPair × List Period)),
      (∀ p, heapCount p hs = activeLen a p) →
      (∀ p l, lookupA a p = some l → l ≠ []) →
      ∃ h2 a2 recs, sFlush hs a = .ok (h2, a2, recs) ∧
        (∀ p, heapCount p h2 = activeLen a2 p) ∧
        (∀ p l, lookupA a2 p = some l → l ≠ []) ∧
        (∀ p s l, lookupA a p = some l → l.getLast? = some (s, none) →
          ∃ l2, lookupA a2 p = some l2 ∧ l2.getLast? = some (s, none)) := by
  intro hs
  induction hs with
  | nil =>
    intro a w1 w2
    exact ⟨[], a, [], rfl, w1, w2, fun p s l hl hlast => ⟨l, hl, hlast⟩⟩
  | cons te hs ih =>
    obtain ⟨t, e⟩ := te
    intro a w1 w2
    have hcnt : heapCount e hs + 1 = activeLen a e := by
      have := w1 e
      rw [heapCount_cons, if_pos rfl] at this
      exact this
    cases hlk : lookupA a e with
    | none =>
      exfalso
      rw [activeLen, hlk] at hcnt
      simp at hcnt
    | some l =>
      cases l with
      | nil =>
        exfalso
        rw [activeLen, hlk] at hcnt
        simp at hcnt
      | cons per rest =>
        obtain ⟨s0, oe⟩ := per
        have hlen : heapCount e hs = rest.length := by
          rw [activeLen, hlk] at hcnt
          simpa using hcnt
        cases oe with
        | none =>
          refine ⟨(t, e) :: hs, a, [], ?_, w1, w2,
            fun p s l hl hlast => ⟨l, hl, hlast⟩⟩
          simp only [sFlush, hlk]
        | some last =>
          have w1' : ∀ p, heapCount p hs =
              activeLen (if rest.isEmpty then eraseA a e
                else updateA a e rest) p := by
            intro p
            by_cases hpe : p = e
            · subst hpe
              by_cases hre : rest.isEmpty
              · rw [if_pos hre, activeLen_eraseA, if_pos rfl, hlen,
                  List.isEmpty_iff.mp hre]
                rfl
              · rw [if_neg hre, activeLen_updateA, if_pos rfl, hlen]
            · have := w1 p
              rw [heapCount_cons, if_neg (fun hh : e = p => hpe hh.symm)] at this
              simp only [Nat.add_zero] at this
              by_cases hre : rest.isEmpty
              · rw [if_pos hre, activeLen_eraseA, if_neg hpe]
                exact this
              · rw [if_neg hre, activeLen_updateA, if_neg hpe]
                exact this
          have w2' : ∀ p l,
              lookupA (if rest.isEmpty then eraseA a e
                else updateA a e rest) p = some l → l ≠ [] := by
            intro p l hl
            by_cases hre : rest.isEmpty
            · rw [if_pos hre, lookupA_eraseA] at hl
              by_cases hpe : p = e
              · rw [if_pos hpe] at hl; cases hl
              · rw [if_neg hpe] at hl; exact w2 p l hl
            · rw [if_neg hre, lookupA_updateA] at hl
              by_cases hpe : p = e
              · rw [if_pos hpe] at hl
                injection hl with hl
                subst hl
                exact fun hh => hre (by rw [hh]; rfl)
              · rw [if_neg hpe] at hl; exact w2 p l hl
          obtain ⟨h2, a2, recs', hrun, f1, f2, f3⟩ := ih _ w1' w2'
          refine ⟨h2, a2,
            { efrom := e.1, eto := e.2, first := s0, last := last } :: recs',
            ?_, f1, f2, ?_⟩
          · simp only [sFlush, hlk]
            rw [hrun, except_bind_ok]
            rfl
          · intro p s l hl hlast
            by_cases hpe : p = e
            · subst hpe
              rw [hlk] at hl
              injection hl with hl
              subst hl
              cases hre : rest with
              | nil =>
                exfalso
                rw [hre] at hlast
                simp at hlast
              | cons r0 rs =>
                have hlast2 : rest.getLast? = some (s, none) := by
                  rw [hre] at hlast ⊢
                  rw [List.getLast?_cons_cons] at hlast
                  exact hlast
                have hre' : ¬ rest.isEmpty := by
                  rw [hre]; simp
                have hlk1 : lookupA (if rest.isEmpty then eraseA a p
                    else updateA a p rest) p = some rest := by
                  rw [if_neg hre', lookupA_updateA, if_pos rfl]
                exact f3 p s rest hlk1 hlast2
            · have hlk1 : lookupA (if rest.isEmpty then eraseA a e
                  else updateA a e rest) p = some l := by
                by_cases hre : rest.isEmpty
                · rw [if_pos hre, lookupA_eraseA, if_neg hpe]
                  exact hl
                · rw [if_neg hre, lookupA_updateA, if_neg hpe]
                  exact hl
              exact f3 p s l hlk1 hlast


theorem activeLen_eq_map (a : List (EPair × List Period)) (p : EPair) :
    activeLen a p = ((lookupA a p).map List.length).getD 0 := by
  unfold activeLen
  cases lookupA a p <;> rfl

theorem sStep_inv (st : SState) (g : PGraph) (hinv : SInv st) :
    ∃ st' recs, sStep st g = .ok (st', recs) ∧ SInv st' := by
  obtain ⟨w1, w2, w3⟩ := hinv
  obtain ⟨f1, f2, f3, f4⟩ := sOpen_fold_inv g.time
    (pairDiff (edgeSet g) st.prev) st.heap st.active w1 w2
  have hclpre : ∀ p ∈ pairDiff st.prev (edgeSet g),
      ∃ l, lookupA ((pairDiff (edgeSet g) st.prev).foldl (sOpen g.time)
        (st.heap, st.active)).2 p = some l ∧ l ≠ [] := by
    intro p hp
    have hp' := (mem_pairDiff _ _ _).mp hp
    have hpo : p ∉ pairDiff (edgeSet g) st.prev := by
      intro hm
      exact ((mem_pairDiff _ _ _).mp hm).2 hp'.1
    rw [f4 p hpo]
    obtain ⟨l, hl, s, hlast⟩ := w3 p hp'.1
    refine ⟨l, hl, ?_⟩
    intro hh
    rw [hh] at hlast
    simp at hlast
  obtain ⟨a2, hclose, hclen, hcunt⟩ := sClose_inv g.time _ _ hclpre
  have hfl1 : ∀ p, heapCount p ((pairDiff (edgeSet g) st.prev).foldl
      (sOpen g.time) (st.heap, st.active)).1 = activeLen a2 p := by
    intro p
    rw [f1 p, activeLen_eq_map, activeLen_eq_map, hclen p]
  have hfl2 : ∀ p l, lookupA a2 p = some l → l ≠ [] := by
    intro p l hl
    have hmap := hclen p
    rw [hl] at hmap
    cases hfold2 : lookupA ((pairDiff (edgeSet g) st.prev).foldl
        (sOpen g.time) (st.heap, st.active)).2 p with
    | none => rw [hfold2] at hmap; cases hmap
    | some l2 =>
      rw [hfold2] at hmap
      simp only [Option.map_some', Option.some.injEq] at hmap
      have hne := f2 p l2 hfold2
      intro hnil
      rw [hnil] at hmap
      simp at hmap
      exact hne (List.length_eq_zero.mp hmap.symm)
  obtain ⟨h2, a3, recs, hfrun, g1, g2, g3⟩ := sFlush_inv _ a2 hfl1 hfl2
  refine ⟨{ active := a3, heap := h2, prev := edgeSet g }, recs, ?_, ?_, ?_, ?_⟩
  · simp only [sStep]
    rw [hclose, except_bind_ok, hfrun, except_bind_ok]
    rfl
  · exact g1
  · exact g2
  · intro p hp
    by_cases hpo : p ∈ pairDiff (edgeSet g) st.prev
    · obtain ⟨l, hl, s, hlast⟩ := f3 p hpo
      have hpncl : p ∉ pairDiff st.prev (edgeSet g) := by
        intro hm
        exact ((mem_pairDiff _ _ _).mp hm).2 hp
      have hl2 : lookupA a2 p = some l := by
        rw [hcunt p hpncl]
        exact hl
      obtain ⟨l2, hl3, hlast2⟩ := g3 p s l hl2 hlast
      exact ⟨l2, hl3, s, hlast2⟩
    · have hprev : p ∈ st.prev := by
        by_contra hnp
        exact hpo ((mem_pairDiff _ _ _).mpr ⟨hp, hnp⟩)
      obtain ⟨l, hl, s, hlast⟩ := w3 p hprev
      have hpncl : p ∉ pairDiff st.prev (edgeSet g) := by
        intro hm
        exact ((mem_pairDiff _ _ _).mp hm).2 hp
      have hl2 : lookupA a2 p = some l := by
        rw [hcunt p hpncl, f4 p hpo]
        exact hl
      obtain ⟨l2, hl3, hlast2⟩ := g3 p s l hl2 hlast
      exact ⟨l2, hl3, s, hlast2⟩

theorem sRun_inv :
    ∀ (gs : List PGraph) (st : SState), SInv st →
      ∃ st' recs, sRun st gs = .ok (st', recs) ∧ SInv st' := by
  intro gs
  induction gs with
  | nil =>
    intro st h
    exact ⟨st, [], rfl, h⟩
  | cons g gs ih =>
    intro st h
    obtain ⟨st1, recs, hstep, h1⟩ := sStep_inv st g h
    obtain ⟨st2, rest, hrest, h2⟩ := ih st1 h1
    refine ⟨st2, recs ++ rest, ?_, h2⟩
    simp only [sRun]
    rw [hstep, except_bind_ok, hrest, except_bind_ok]
    rfl


/-- C10: throughout any run of `get_edge_sorted`, after each snapshot the
heap holds, per pair, exactly as many entries as that pair's `active`
list has periods, and every list stored in `active` is non-empty — so
the guard's `active[heap[0][1]][0]` inspection and the pops never fail
on a missing key or empty list, and the whole run returns without error
for EVERY snapshot list (every prefix of a sequence is itself a sequence,
so instantiating `gs` at each prefix gives the invariant after each
snapshot). -/
theorem sorted_extractor_invariant :
    ∀ gs : List PGraph, ∃ st recs,
      sRun { active := [], heap := [], prev := [] } gs = .ok (st, recs) ∧
      (∀ p, heapCount p st.heap = activeLen st.active p) ∧
      (∀ p l, lookupA st.active p = some l → l ≠ []) := by
  intro gs
  have hinit : SInv { active := [], heap := [], prev := [] } := by
    refine ⟨fun p => rfl, ?_, ?_⟩
    · intro p l hl
      simp [lookupA] at hl
    · intro p hp
      simp at hp
  obtain ⟨st, recs, hrun, h1, h2, h3⟩ := sRun_inv gs _ hinit
  exact ⟨st, recs, hrun, h1, h2⟩

end SpatialNet
